import Mathlib

/-!
Verification development for the PC_setup repository.

The embedding models the pure data manipulation of the repository's Python
code over `List Char` (Python `str`) and lists (Python `list`/`set`), and
models the firewall mutation layer as an explicit command trace interpreted
against an abstract iptables state.  Python sets are modelled as duplicate-free
lists built with order-preserving insertion; iteration order of a set is the
insertion order of the model.
-/

namespace PCSetup

/-! ## Python string primitives over `List Char` -/

/-- Python `s.startswith(pat)`: `pat` is a prefix of `s`. -/
def pyStartswith : List Char → List Char → Bool
  | _, [] => true
  | [], _ :: _ => false
  | c :: cs, p :: ps => c == p && pyStartswith cs ps

/-- Python `pat in s`: `pat` occurs contiguously in `s`. -/
def pyContains : List Char → List Char → Bool
  | [], pat => pyStartswith [] pat
  | c :: cs, pat => pyStartswith (c :: cs) pat || pyContains cs pat

/-- Python `s.endswith(pat)`. -/
def pyEndswith (s pat : List Char) : Bool :=
  pyStartswith s.reverse pat.reverse

/-- Python `s.lower()` (ASCII case mapping, as used on domain strings). -/
def toLowerL (s : List Char) : List Char :=
  s.map Char.toLower

/-- Python `s.upper()` (ASCII case mapping). -/
def toUpperL (s : List Char) : List Char :=
  s.map Char.toUpper

/-- Drop leading whitespace. -/
def dropWs : List Char → List Char
  | [] => []
  | c :: cs => if c.isWhitespace then dropWs cs else c :: cs

/-- Python `s.strip()`: drop whitespace from both ends. -/
def trimL (s : List Char) : List Char :=
  (dropWs (dropWs s).reverse).reverse

/-- Python `s.split(sep)[0]`: the characters before the first occurrence of
`sep` (the whole string when `sep` is absent). -/
def takeUntil (sep : Char) : List Char → List Char
  | [] => []
  | c :: cs => if c = sep then [] else c :: takeUntil sep cs

/-- Python `s.split(sep)`: split on every occurrence of the separator. -/
def splitCh (sep : Char) : List Char → List (List Char)
  | [] => [[]]
  | c :: cs =>
    if c = sep then [] :: splitCh sep cs
    else
      match splitCh sep cs with
      | [] => [[c]]
      | l :: ls => (c :: l) :: ls

/-- Core of Python `s.replace(pat, '')` for a nonempty pattern `p :: ps`:
delete every occurrence, scanning left to right.  Each step consumes at
least one character, so fuel equal to the string length suffices; the
fuel-out branch is unreachable for that choice. -/
def pyReplaceDelAux (p : Char) (ps : List Char) : Nat → List Char → List Char
  | _, [] => []
  | 0, s => s
  | fuel + 1, c :: rest =>
    if (p :: ps).isPrefixOf (c :: rest) then
      pyReplaceDelAux p ps fuel (rest.drop ps.length)
    else
      c :: pyReplaceDelAux p ps fuel rest

/-- Python `s.replace(pat, '')`. -/
def pyReplaceDel (pat s : List Char) : List Char :=
  match pat with
  | [] => s
  | p :: ps => pyReplaceDelAux p ps s.length s

/-! ## Python set and sort primitives -/

/-- Python `set.add`: sets are modelled as duplicate-free lists, with new
elements appended (iteration order = insertion order). -/
def insertSet [DecidableEq α] (l : List α) (a : α) : List α :=
  if a ∈ l then l else l ++ [a]

/-- Python `set(xs)`. -/
def pySet [DecidableEq α] (xs : List α) : List α :=
  xs.foldl insertSet []

/-- Python `a.union(b)` for modelled sets. -/
def pyUnion [DecidableEq α] (a b : List α) : List α :=
  b.foldl insertSet (pySet a)

/-- Python string comparison `a < b`: lexicographic on code points. -/
def lexLt : List Char → List Char → Bool
  | [], [] => false
  | [], _ :: _ => true
  | _ :: _, [] => false
  | a :: as, b :: bs => a < b || (a == b && lexLt as bs)

/-- Insert into a lexicographically sorted list (used to model `sorted`). -/
def insertSorted (a : List Char) : List (List Char) → List (List Char)
  | [] => [a]
  | b :: bs => if lexLt a b then a :: b :: bs else b :: insertSorted a bs

/-- Python `sorted(xs)` for string sets: an ordered permutation of `xs`
under the strict lexicographic order. -/
def pySorted (xs : List (List Char)) : List (List Char) :=
  xs.foldr insertSorted []

/-! ## ContestManager (contest_manager/core/manager.py)

The whitelist file is modelled as its full character contents; reading it
line by line is modelled by splitting on newline characters. -/

namespace ContestManager

/-- Model of `ContestManager._normalize_domain`: strip (case-sensitively) the literal
substrings `http://` and `https://`, truncate at the first `/` and the first
`:`, lowercase, trim, and reject results without a dot. -/
def _normalize_domain (domain : List Char) : List Char :=
  if domain = [] then []
  else
    let d1 := pyReplaceDel "http://".data domain
    let d2 := pyReplaceDel "https://".data d1
    let d3 := takeUntil '/' d2
    let d4 := takeUntil ':' d3
    let d5 := trimL (toLowerL d4)
    if d5 = [] ∨ '.' ∉ d5 then [] else d5

/-- The fixed 3-line comment header written by `save_whitelist` (followed by
a blank line). -/
def whitelistHeader : List Char :=
  ("# Contest Environment Manager - Whitelisted Sites\n" ++
   "# Add one domain per line\n" ++
   "# Comments start with #\n\n").data

/-- Model of `ContestManager.save_whitelist`: header plus the domains sorted, one per
line.  (File I/O errors are outside the model; the write always succeeds.) -/
def save_whitelist (domains : List (List Char)) : List Char :=
  whitelistHeader ++ (pySorted domains).foldr (fun d acc => d ++ '\n' :: acc) []

/-- One step of `ContestManager.load_whitelist`'s loop: strip the line, skip
blank lines and `#` comments, lowercase and insert into the set. -/
def loadLine (domains : List (List Char)) (line : List Char) : List (List Char) :=
  let l := trimL line
  if l ≠ [] ∧ ¬ pyStartswith l "#".data then insertSet domains (toLowerL l)
  else domains

/-- Model of `ContestManager.load_whitelist` on a present file. -/
def load_whitelist (file : List Char) : List (List Char) :=
  (splitCh '\n' file).foldl loadLine []

/-- Model of `ContestManager.list_domains`. -/
def list_domains (file : List Char) : List (List Char) :=
  pySorted (load_whitelist file)

/-- Model of `ContestManager.add_domain`, returning the reported success flag and the
whitelist file contents after the call. -/
def add_domain (file : List Char) (domain : List Char) : Bool × List Char :=
  let d := _normalize_domain domain
  if d = [] then (false, file)
  else
    let domains := load_whitelist file
    if d ∈ domains then (true, file)
    else (true, save_whitelist (insertSet domains d))

/-- Model of `ContestManager.remove_domain`. -/
def remove_domain (file : List Char) (domain : List Char) : Bool × List Char :=
  let d := _normalize_domain domain
  if d = [] then (false, file)
  else
    let domains := load_whitelist file
    if d ∉ domains then (true, file)
    else (true, save_whitelist (domains.filter (· ≠ d)))

/-- The CLI `add` command (`cli/main.py`): run `add_domain` and exit with
code 0 on success, 1 on failure. -/
def addCommand (file : List Char) (domain : List Char) : Nat × List Char :=
  let r := add_domain file domain
  (if r.1 then 0 else 1, r.2)

/-- The CLI `remove` command. -/
def removeCommand (file : List Char) (domain : List Char) : Nat × List Char :=
  let r := remove_domain file domain
  (if r.1 then 0 else 1, r.2)

/-- Run a sequence of `add` calls, collecting each call's success flag and
threading the whitelist file through. -/
def runAdds (file : List Char) : List (List Char) → List Bool × List Char
  | [] => ([], file)
  | a :: rest =>
    let r := add_domain file a
    let rec' := runAdds r.2 rest
    (r.1 :: rec'.1, rec'.2)

/-- Association-list lookup for the JSON dependency cache
(domain → list of dependency domains). -/
def lookupCache (cache : List (List Char × List (List Char))) (d : List Char) :
    Option (List (List Char)) :=
  match cache with
  | [] => none
  | (k, v) :: rest => if k = d then some v else lookupCache rest d

/-- The dependency-cache step of `ContestManager.apply_restrictions`
(manager.py lines 452-468): a fresh dict is filled with one entry per
currently whitelisted domain and then dumped over the cache file.  The
previous cache-file contents are taken as an argument to make the state
transition explicit; the code never reads them. -/
def restrict_cache_step (analyze : List Char → List (List Char))
    (file : List Char) (_oldCache : List (List Char × List (List Char))) :
    List (List Char × List (List Char)) :=
  (list_domains file).map fun d => (d, analyze d)

/-- A domain string that survives the whitelist file format unchanged:
trim-fixed, lowercase-fixed, newline-free, nonempty and not a comment. -/
def goodDomain (d : List Char) : Prop :=
  trimL d = d ∧ toLowerL d = d ∧ '\n' ∉ d ∧ d ≠ [] ∧
    pyStartswith d "#".data = false

end ContestManager

/-! ## DependencyAnalyzer (contest_manager/utils/dependency_analyzer.py;
the scripts/utils copy defines the same keyword lists and the same
`filter_dependencies` and `extract_domain` logic) -/

namespace DependencyAnalyzer

/-- Model of `self.blocked_keywords`. -/
def blocked_keywords : List (List Char) :=
  (["openai", "chatgpt", "anthropic", "claude", "gemini", "bard",
    "google", "bing", "yahoo", "duckduckgo", "yandex", "baidu",
    "facebook", "twitter", "instagram", "linkedin", "reddit", "discord",
    "telegram", "whatsapp", "tiktok", "youtube", "snapchat",
    "github", "gitlab", "stackoverflow", "stackexchange", "medium",
    "dev.to", "hackernews", "codepen", "jsfiddle",
    "wikipedia", "w3schools", "tutorialspoint", "freecodecamp",
    "coursera", "udemy", "khan", "edx",
    "amazon", "ebay", "alibaba", "shopify",
    "dropbox", "onedrive", "icloud", "mega",
    "cnn", "bbc", "reuters", "news", "techcrunch"] : List String).map String.data

/-- Model of `self.essential_keywords`. -/
def essential_keywords : List (List Char) :=
  (["cdn", "static", "assets", "img", "css", "js", "fonts",
    "cloudflare", "cloudfront", "fastly", "jsdelivr", "unpkg",
    "bootstrapcdn", "jquery", "ajax", "gstatic",
    "captcha", "recaptcha", "hcaptcha", "auth", "oauth",
    "ssl", "tls", "cert", "security",
    "api", "webhook", "analytics", "tracking",
    "mathjax", "katex", "mermaid", "highlight",
    "fontawesome", "typekit", "googlefonts"] : List String).map String.data

/-- The literal CDN patterns tested by `filter_dependencies`. -/
def cdn_patterns : List (List Char) :=
  (["cdn.", "static.", "assets.", "img.", "css.", "js.",
    "fonts.", "api.", "auth.", "ssl.", "captcha"] : List String).map String.data

/-- The named big-CDN substrings tested together with a `.net`/`.io` ending. -/
def big_cdns : List (List Char) :=
  (["cloudflare", "fastly", "amazon", "microsoft", "akamai"] : List String).map String.data

/-- Model of `any(keyword in dep.lower() for keyword in self.blocked_keywords)`. -/
def is_blocked (dep : List Char) : Bool :=
  blocked_keywords.any fun kw => pyContains (toLowerL dep) kw

/-- Model of `any(keyword in dep.lower() for keyword in self.essential_keywords)`. -/
def is_essential (dep : List Char) : Bool :=
  essential_keywords.any fun kw => pyContains (toLowerL dep) kw

/-- Model of `any(pattern in dep.lower() for pattern in [...])`. -/
def is_cdn (dep : List Char) : Bool :=
  cdn_patterns.any fun p => pyContains (toLowerL dep) p

/-- Model of `dep.endswith(('.net', '.io')) and any(cdn in dep.lower() for cdn in [...])`. -/
def is_common_cdn (dep : List Char) : Bool :=
  (pyEndswith dep ".net".data || pyEndswith dep ".io".data) &&
    big_cdns.any fun c => pyContains (toLowerL dep) c

/-- The keep condition of the classifier for a non-blocked host. -/
def keepDep (dep : List Char) : Bool :=
  is_essential dep || is_cdn dep || is_common_cdn dep

/-- One iteration of the `filter_dependencies` loop. -/
def filterStep (acc : List (List Char)) (dep : List Char) : List (List Char) :=
  if is_blocked dep then acc
  else if keepDep dep then insertSet acc dep
  else acc

/-- Model of `DependencyAnalyzer.filter_dependencies`. -/
def filter_dependencies (deps : List (List Char)) : List (List Char) :=
  deps.foldl filterStep []

/-- The characters that terminate the network-location component of a URL. -/
def netlocStop (c : Char) : Bool :=
  c == '/' || c == '?' || c == '#'

/-- The substring following the first `//`, when present. -/
def afterDoubleSlash : List Char → Option (List Char)
  | [] => none
  | '/' :: '/' :: rest => some rest
  | _ :: rest => afterDoubleSlash rest

/-- Models `urllib.parse.urlparse(url).netloc` for the absolute URLs seen in
browser request logs: the substring after the first `//` up to the next `/`,
`?` or `#`, and empty when the URL has no `//`. -/
def netlocL (url : List Char) : List Char :=
  match afterDoubleSlash url with
  | some rest => rest.takeWhile fun c => !netlocStop c
  | none => []

/-- Model of `DependencyAnalyzer.extract_domain`: lowercase the netloc, cut at the
first `:`, strip one leading `www.`, and return `None` for an empty result. -/
def extract_domain (url : List Char) : Option (List Char) :=
  let d0 := toLowerL (netlocL url)
  let d1 := if ':' ∈ d0 then takeUntil ':' d0 else d0
  let d2 := if pyStartswith d1 "www.".data then d1.drop 4 else d1
  if d2 = [] then none else some d2

/-- One iteration of the request-log loop of `analyze_domain`: extract the
request's domain and collect it when it differs from the analyzed domain. -/
def collectDep (domain : List Char) (acc : List (List Char)) (url : List Char) :
    List (List Char) :=
  match extract_domain url with
  | some dd => if dd ≠ domain then insertSet acc dd else acc
  | none => acc

/-- Model of `DependencyAnalyzer.analyze_domain`, with the browser capture abstracted
as the list of request URLs recorded while loading the page: collect every
request domain different from the analyzed domain, then filter. -/
def analyze_domain (requestUrls : List (List Char)) (domain : List Char) :
    List (List Char) :=
  filter_dependencies (requestUrls.foldl (collectDep domain) [])

/-- Modelled from the spec (for comparison with the code): a host "matches a
literal CDN-path pattern (cdn., static., api., etc.) as a prefix segment". -/
def specCdnPatternAtStart (dep : List Char) : Bool :=
  cdn_patterns.any fun p => pyStartswith (toLowerL dep) p

/-- Modelled from the spec (for comparison with the code): the essential
classification of a non-blocked host as the spec sentence states it -
an essential keyword substring, a CDN pattern at the start, or a
`.net`/`.io` host naming a big CDN. -/
def specEssential (dep : List Char) : Bool :=
  is_essential dep || specCdnPatternAtStart dep || is_common_cdn dep

end DependencyAnalyzer

/-! ## Firewall state and command semantics

`NetworkRestrictor` mutates the OS firewall exclusively through
`run_command(['iptables' | 'ip6tables', ...])`.  Each invocation is modelled
as a `Cmd` (address family, argument list after the binary name, and the
`check` flag of `run_command`).  A table holds the built-in OUTPUT chain and
the user-defined chains; a command either transforms the table or fails, and
a failing command aborts the run exactly when `check` was true (the Python
code lets `CalledProcessError` propagate in that case). -/

inductive Fam where
  | v4 : Fam
  | v6 : Fam
deriving DecidableEq

structure Cmd where
  fam : Fam
  args : List String
  chk : Bool
deriving DecidableEq

/-- An iptables rule as stored in a chain: the matcher/target arguments of
the `-A`/`-D` invocation that created it. -/
abbrev Rule := List String

structure Table where
  output : List Rule
  chains : List (String × List Rule)
deriving DecidableEq

structure Fw where
  v4 : Table
  v6 : Table
deriving DecidableEq

/-- A firewall with an empty OUTPUT chain and no user-defined chains. -/
def initialFw : Fw :=
  ⟨⟨[], []⟩, ⟨[], []⟩⟩

def getChain : List (String × List Rule) → String → Option (List Rule)
  | [], _ => none
  | (n, rs) :: rest, c => if n = c then some rs else getChain rest c

def setChain : List (String × List Rule) → String → List Rule →
    List (String × List Rule)
  | [], _, _ => []
  | (n, rs) :: rest, c, rs' =>
    if n = c then (n, rs') :: rest else (n, rs) :: setChain rest c rs'

def delChain (chains : List (String × List Rule)) (c : String) :
    List (String × List Rule) :=
  chains.filter fun p => p.1 ≠ c

/-- The jump target of a rule: the argument following `-j`. -/
def ruleTarget : List String → Option String
  | [] => none
  | "-j" :: t :: _ => some t
  | _ :: rest => ruleTarget rest

def referencesChain (rs : List Rule) (c : String) : Bool :=
  rs.any fun r => ruleTarget r == some c

/-- Whether any rule of the table jumps to chain `c` (the condition under
which `iptables -X c` refuses to delete it). -/
def chainReferenced (t : Table) (c : String) : Bool :=
  referencesChain t.output c || t.chains.any fun p => referencesChain p.2 c

/-- Interpret one iptables invocation against one table; `none` means the
command exited nonzero. -/
def execTable (t : Table) (args : List String) : Option Table :=
  match args with
  | "-N" :: c :: [] =>
    if c = "OUTPUT" then none
    else
      match getChain t.chains c with
      | some _ => none
      | none => some { t with chains := t.chains ++ [(c, [])] }
  | "-F" :: c :: [] =>
    if c = "OUTPUT" then some { t with output := [] }
    else
      match getChain t.chains c with
      | some _ => some { t with chains := setChain t.chains c [] }
      | none => none
  | "-X" :: c :: [] =>
    if c = "OUTPUT" then none
    else
      match getChain t.chains c with
      | some rs =>
        if rs = [] ∧ chainReferenced t c = false then
          some { t with chains := delChain t.chains c }
        else none
      | none => none
  | "-A" :: c :: rest =>
    if c = "OUTPUT" then some { t with output := t.output ++ [rest] }
    else
      match getChain t.chains c with
      | some rs => some { t with chains := setChain t.chains c (rs ++ [rest]) }
      | none => none
  | "-I" :: c :: rest =>
    if c = "OUTPUT" then some { t with output := rest :: t.output }
    else
      match getChain t.chains c with
      | some rs => some { t with chains := setChain t.chains c (rest :: rs) }
      | none => none
  | "-D" :: c :: rest =>
    if c = "OUTPUT" then
      if rest ∈ t.output then some { t with output := t.output.erase rest }
      else none
    else
      match getChain t.chains c with
      | some rs =>
        if rest ∈ rs then some { t with chains := setChain t.chains c (rs.erase rest) }
        else none
      | none => none
  | _ => none

def execCmd (s : Fw) (c : Cmd) : Option Fw :=
  match c.fam with
  | Fam.v4 => (execTable s.v4 c.args).map fun t => { s with v4 := t }
  | Fam.v6 => (execTable s.v6 c.args).map fun t => { s with v6 := t }

/-- Run a command trace: a failing command aborts the run when its `check`
flag was true and is skipped otherwise. -/
def run (s : Fw) : List Cmd → Option Fw
  | [] => some s
  | c :: cs =>
    match execCmd s c with
    | some s' => run s' cs
    | none => if c.chk then none else run s cs

/-! ## NetworkRestrictor (scripts/utils/network_restrictor.py) -/

namespace NetworkRestrictor

def cmd4 (args : List String) (chk : Bool) : Cmd := ⟨Fam.v4, args, chk⟩

def cmd6 (args : List String) (chk : Bool) : Cmd := ⟨Fam.v6, args, chk⟩

/-- Python `str.upper()` applied to the username. -/
def pyUpper (s : String) : String := ⟨toUpperL s.data⟩

/-- Model of `self.chain_in = f"CONTEST_{user.upper()}_IN"`. -/
def chain_in (user : String) : String := "CONTEST_" ++ pyUpper user ++ "_IN"

/-- Model of `self.chain_out = f"CONTEST_{user.upper()}_OUT"`. -/
def chain_out (user : String) : String := "CONTEST_" ++ pyUpper user ++ "_OUT"

/-- The owner-match jump rule appended to the global OUTPUT chain. -/
def jumpRule (uid : Nat) (user : String) : Rule :=
  ["-m", "owner", "--uid-owner", toString uid, "-j", chain_out user]

/-- Model of `NetworkRestrictor.clear_existing_rules`: delete the IPv4 OUTPUT jump
rule, then flush and delete both chains in both families.  Every command
runs with `check=False`. -/
def clear_existing_rules (user : String) (uid : Nat) : List Cmd :=
  cmd4 ("-D" :: "OUTPUT" :: jumpRule uid user) false ::
    ([chain_in user, chain_out user]).flatMap fun c =>
      [cmd4 ["-F", c] false, cmd4 ["-X", c] false,
       cmd6 ["-F", c] false, cmd6 ["-X", c] false]

/-- Model of `NetworkRestrictor.create_chains`. -/
def create_chains (user : String) : List Cmd :=
  [cmd4 ["-N", chain_in user] true,
   cmd4 ["-N", chain_out user] true,
   cmd6 ["-N", chain_in user] false,
   cmd6 ["-N", chain_out user] false]

/-- Model of `NetworkRestrictor.setup_default_rules`. -/
def setup_default_rules (user : String) : List Cmd :=
  [cmd4 ["-A", chain_out user, "-m", "state", "--state", "ESTABLISHED,RELATED",
         "-j", "ACCEPT"] true,
   cmd4 ["-A", chain_out user, "-d", "127.0.0.0/8", "-j", "ACCEPT"] true,
   cmd4 ["-A", chain_out user, "-p", "udp", "--dport", "53", "-j", "ACCEPT"] true,
   cmd4 ["-A", chain_out user, "-p", "tcp", "--dport", "53", "-j", "ACCEPT"] true,
   cmd6 ["-A", chain_out user, "-m", "state", "--state", "ESTABLISHED,RELATED",
         "-j", "ACCEPT"] false,
   cmd6 ["-A", chain_out user, "-d", "::1/128", "-j", "ACCEPT"] false,
   cmd6 ["-A", chain_out user, "-p", "udp", "--dport", "53", "-j", "ACCEPT"] false,
   cmd6 ["-A", chain_out user, "-p", "tcp", "--dport", "53", "-j", "ACCEPT"] false]

/-- The fixed subdomain prefixes also queried by `resolve_domain_ips`. -/
def commonSubdomains : List String := ["www", "api", "cdn", "static", "assets"]

/-- Model of `NetworkRestrictor.resolve_domain_ips`, with DNS abstracted as the two
query functions `resolveA`/`resolveAAAA` (a failing query contributes the
empty list): union the A and AAAA answers for the domain and each common
subdomain into a set. -/
def resolve_domain_ips (resolveA resolveAAAA : String → List String)
    (domain : String) : List String :=
  pySet (resolveA domain ++ resolveAAAA domain ++
    commonSubdomains.flatMap fun sub =>
      resolveA (sub ++ "." ++ domain) ++ resolveAAAA (sub ++ "." ++ domain))

/-- Whether a dot-separated part is a valid decimal IPv4 octet
(1-3 digits, value at most 255, no redundant leading zero). -/
def validOctet (p : List Char) : Bool :=
  p ≠ [] && p.length ≤ 3 && p.all Char.isDigit &&
    (p.foldl (fun n c => 10 * n + (c.toNat - 48)) 0) ≤ 255 &&
    !(p.length > 1 && p.headI = '0')

/-- Models `ipaddress.ip_address(ip).version`: `some 4` for a dotted-quad
IPv4 literal, `some 6` for a colon-bearing IPv6 literal, and `none`
(a `ValueError`) otherwise. -/
def ipVersion (ip : String) : Option Nat :=
  if (splitCh '.' ip.data).length = 4 ∧ (splitCh '.' ip.data).all validOctet then
    some 4
  else if ':' ∈ ip.data then some 6
  else none

/-- The rules added by `add_domain_rules` for one resolved IP: an ACCEPT to
that destination in the matching family (invalid addresses are skipped). -/
def ipRule (user : String) (ip : String) : List Cmd :=
  match ipVersion ip with
  | some 4 => [cmd4 ["-A", chain_out user, "-d", ip, "-j", "ACCEPT"] true]
  | some _ => [cmd6 ["-A", chain_out user, "-d", ip, "-j", "ACCEPT"] false]
  | none => []

/-- Model of `NetworkRestrictor.add_domain_rules`: resolve each domain of the set and
append one ACCEPT rule per resolved IP. -/
def add_domain_rules (resolveA resolveAAAA : String → List String)
    (user : String) (domains : List String) : List Cmd :=
  domains.flatMap fun domain =>
    (resolve_domain_ips resolveA resolveAAAA domain).flatMap (ipRule user)

/-- The `essential_cdns` list of `add_essential_cdns`. -/
def essential_cdns : List String :=
  ["cloudflare.com", "cloudfront.net", "fastly.com",
   "jsdelivr.net", "unpkg.com", "cdnjs.cloudflare.com",
   "fonts.googleapis.com", "fonts.gstatic.com", "typekit.net",
   "recaptcha.net", "hcaptcha.com", "gstatic.com",
   "mathjax.org", "cdn.mathjax.org",
   "ajax.googleapis.com"]

/-- Model of `NetworkRestrictor.add_essential_cdns`. -/
def add_essential_cdns (resolveA resolveAAAA : String → List String)
    (user : String) : List Cmd :=
  add_domain_rules resolveA resolveAAAA user (pySet essential_cdns)

/-- Model of `NetworkRestrictor.finalize_rules`: the catch-all REJECT rules, then the
owner-match jump rules appended to the global OUTPUT chains. -/
def finalize_rules (user : String) (uid : Nat) : List Cmd :=
  [cmd4 ["-A", chain_out user, "-j", "REJECT", "--reject-with",
         "icmp-host-unreachable"] true,
   cmd6 ["-A", chain_out user, "-j", "REJECT", "--reject-with",
         "icmp6-adm-prohibited"] false,
   cmd4 ("-A" :: "OUTPUT" :: jumpRule uid user) true,
   cmd6 ("-A" :: "OUTPUT" :: jumpRule uid user) false]

/-- Model of `NetworkRestrictor.apply_restrictions(domains, dependencies)`: the
firewall command trace it issues (`install_dependencies` runs only package
manager commands and touches no firewall state). -/
def apply_restrictions (resolveA resolveAAAA : String → List String)
    (user : String) (uid : Nat) (domains dependencies : List String) : List Cmd :=
  clear_existing_rules user uid ++ create_chains user ++
    setup_default_rules user ++
    add_domain_rules resolveA resolveAAAA user (pyUnion domains dependencies) ++
    add_essential_cdns resolveA resolveAAAA user ++ finalize_rules user uid

end NetworkRestrictor

/-! ## Character lemmas -/

theorem toNat_ofNat_valid {n : Nat} (h : n.isValidChar) : (Char.ofNat n).toNat = n := by
  unfold Char.ofNat
  rw [dif_pos h]
  rfl

theorem toLower_ite (c : Char) :
    Char.toLower c =
      if c.toNat ≥ 65 ∧ c.toNat ≤ 90 then Char.ofNat (c.toNat + 32) else c := rfl

theorem toLower_toNat (c : Char) :
    (Char.toLower c).toNat =
      if c.toNat ≥ 65 ∧ c.toNat ≤ 90 then c.toNat + 32 else c.toNat := by
  rw [toLower_ite]
  split_ifs with h
  · exact toNat_ofNat_valid (Or.inl (by omega))
  · rfl

theorem toLower_idem (c : Char) : Char.toLower (Char.toLower c) = Char.toLower c := by
  have h := toLower_toNat c
  rw [toLower_ite (Char.toLower c)]
  split_ifs with h2
  · exfalso
    by_cases hc : c.toNat ≥ 65 ∧ c.toNat ≤ 90 <;> simp [hc] at h <;> omega
  · rfl

theorem char_eq_of_toNat {a b : Char} (h : a.toNat = b.toNat) : a = b :=
  Char.eq_of_val_eq (UInt32.ext h)

/-- Lemma: `Char.toLower` can only produce a character outside the lowercase ASCII
range `[97, 122]` if its argument already was that character. -/
theorem eq_of_toLower_eq {t : Char} (ht : ¬(97 ≤ t.toNat ∧ t.toNat ≤ 122))
    {c : Char} (h : Char.toLower c = t) : c = t := by
  have hn := toLower_toNat c
  rw [h] at hn
  by_cases hc : c.toNat ≥ 65 ∧ c.toNat ≤ 90
  · rw [if_pos hc] at hn
    omega
  · rw [if_neg hc] at hn
    exact char_eq_of_toNat hn.symm

/-! ## Lemmas on the list primitives -/

theorem mem_insertSet [DecidableEq α] {l : List α} {a x : α} :
    x ∈ insertSet l a ↔ x ∈ l ∨ x = a := by
  unfold insertSet
  split_ifs with h
  · constructor
    · exact fun hx => Or.inl hx
    · rintro (hx | rfl) <;> [exact hx; exact h]
  · simp

theorem nodup_insertSet [DecidableEq α] {l : List α} (h : l.Nodup) (a : α) :
    (insertSet l a).Nodup := by
  unfold insertSet
  split_ifs with hm
  · exact h
  · rw [List.nodup_append]
    exact ⟨h, List.nodup_singleton a, by simpa using fun hmem => hm hmem⟩

theorem toLowerL_idem (s : List Char) : toLowerL (toLowerL s) = toLowerL s := by
  simp [toLowerL, List.map_map, Function.comp_def, toLower_idem]

theorem map_eq_self_of_fix {f : α → α} {l : List α} (h : ∀ x ∈ l, f x = x) :
    l.map f = l := by
  induction l with
  | nil => rfl
  | cons a as ih =>
    simp only [List.map_cons, h a (by simp)]
    rw [ih fun x hx => h x (by simp [hx])]

theorem mem_of_map_fix {f : α → α} {l : List α} (h : l.map f = l) {x : α}
    (hx : x ∈ l) : f x = x := by
  induction l with
  | nil => cases hx
  | cons a as ih =>
    simp only [List.map_cons, List.cons.injEq] at h
    rcases List.mem_cons.mp hx with rfl | hx'
    · exact h.1
    · exact ih h.2 hx'

theorem mem_dropWs {s : List Char} {x : Char} (h : x ∈ dropWs s) : x ∈ s := by
  induction s with
  | nil => simp [dropWs] at h
  | cons c cs ih =>
    by_cases hw : c.isWhitespace
    · simp only [dropWs, if_pos hw] at h
      exact List.mem_cons_of_mem _ (ih h)
    · simpa [dropWs, hw] using h

theorem dropWs_length (s : List Char) : (dropWs s).length ≤ s.length := by
  induction s with
  | nil => simp [dropWs]
  | cons c cs ih =>
    by_cases hw : c.isWhitespace
    · rw [dropWs, if_pos hw]
      exact le_trans ih (by simp)
    · simp [dropWs, hw]

theorem dropWs_head_not_ws {s : List Char} {c : Char} {cs : List Char}
    (h : dropWs s = c :: cs) : c.isWhitespace = false := by
  induction s with
  | nil => simp [dropWs] at h
  | cons a as ih =>
    by_cases hw : a.isWhitespace
    · exact ih (by simpa [dropWs, hw] using h)
    · simp only [dropWs, if_neg hw, List.cons.injEq] at h
      simp [← h.1, hw]

theorem dropWs_of_fix_cons {c : Char} {cs : List Char}
    (h : dropWs (c :: cs) = c :: cs) : c.isWhitespace = false := by
  by_cases hw : c.isWhitespace
  · exfalso
    rw [dropWs, if_pos hw] at h
    have := dropWs_length cs
    have := congrArg List.length h
    simp at this
    omega
  · simp [hw]

theorem dropWs_idem (s : List Char) : dropWs (dropWs s) = dropWs s := by
  cases h : dropWs s with
  | nil => rfl
  | cons c cs => rw [dropWs, if_neg (by simp [dropWs_head_not_ws h])]

theorem dropWs_toDrop (s : List Char) : ∃ t, s = t ++ dropWs s := by
  induction s with
  | nil => exact ⟨[], rfl⟩
  | cons c cs ih =>
    by_cases hw : c.isWhitespace
    · obtain ⟨t, ht⟩ := ih
      exact ⟨c :: t, by simp [dropWs, hw, ← ht]⟩
    · exact ⟨[], by simp [dropWs, hw]⟩

/-- Trimming the right end of a string whose left end is clean keeps the
left end clean. -/
theorem dropWs_back_of_front {u : List Char} (h : dropWs u = u) :
    dropWs (dropWs u.reverse).reverse = (dropWs u.reverse).reverse := by
  obtain ⟨t, ht⟩ := dropWs_toDrop u.reverse
  set w := (dropWs u.reverse).reverse with hw
  have hu : u = w ++ t.reverse := by
    have := congrArg List.reverse ht
    simpa [hw] using this
  cases hwc : w with
  | nil => rfl
  | cons c cs =>
    have hcu : u = c :: (cs ++ t.reverse) := by rw [hu, hwc]; simp
    have hfix : dropWs (c :: (cs ++ t.reverse)) = c :: (cs ++ t.reverse) := by
      rw [← hcu, h]
    have := dropWs_of_fix_cons hfix
    rw [dropWs, if_neg (by simp [this])]

theorem trimL_idem (s : List Char) : trimL (trimL s) = trimL s := by
  unfold trimL
  have h1 : dropWs (dropWs (dropWs s).reverse).reverse =
      (dropWs (dropWs s).reverse).reverse :=
    dropWs_back_of_front (dropWs_idem s)
  rw [h1, List.reverse_reverse, dropWs_idem]

theorem mem_trimL {s : List Char} {x : Char} (h : x ∈ trimL s) : x ∈ s := by
  unfold trimL at h
  rw [List.mem_reverse] at h
  have := mem_dropWs h
  rw [List.mem_reverse] at this
  exact mem_dropWs this

theorem mem_takeUntil {sep : Char} {l : List Char} {x : Char}
    (h : x ∈ takeUntil sep l) : x ∈ l ∧ x ≠ sep := by
  induction l with
  | nil => simp [takeUntil] at h
  | cons c cs ih =>
    by_cases hc : c = sep
    · simp [takeUntil, hc] at h
    · simp only [takeUntil, if_neg hc] at h
      rcases List.mem_cons.mp h with rfl | h'
      · exact ⟨by simp, hc⟩
      · exact ⟨List.mem_cons_of_mem _ (ih h').1, (ih h').2⟩

theorem takeUntil_eq_self {sep : Char} {l : List Char} (h : sep ∉ l) :
    takeUntil sep l = l := by
  induction l with
  | nil => rfl
  | cons c cs ih =>
    rw [takeUntil, if_neg (by rintro rfl; exact h (by simp))]
    rw [ih fun hm => h (List.mem_cons_of_mem _ hm)]

theorem isPrefixOf_mem {pat l : List Char} (h : pat.isPrefixOf l = true) {x : Char}
    (hx : x ∈ pat) : x ∈ l := by
  induction pat generalizing l with
  | nil => cases hx
  | cons p ps ih =>
    cases l with
    | nil => simp [List.isPrefixOf] at h
    | cons c cs =>
      simp only [List.isPrefixOf, Bool.and_eq_true, beq_iff_eq] at h
      rcases List.mem_cons.mp hx with rfl | hx'
      · simp [h.1]
      · exact List.mem_cons_of_mem _ (ih h.2 hx')

theorem pyReplaceDelAux_eq_self {p : Char} {ps : List Char} {x : Char}
    (hx : x ∈ p :: ps) :
    ∀ (fuel : Nat) {s : List Char}, x ∉ s → pyReplaceDelAux p ps fuel s = s := by
  intro fuel
  induction fuel with
  | zero =>
    intro s _
    cases s with
    | nil => rw [pyReplaceDelAux]
    | cons c cs =>
      rw [pyReplaceDelAux]
      simp
  | succ n ih =>
    intro s hs
    cases s with
    | nil => rw [pyReplaceDelAux]
    | cons c cs =>
      rw [pyReplaceDelAux]
      split_ifs with h
      · exact absurd (isPrefixOf_mem h hx) hs
      · rw [ih fun hm => hs (List.mem_cons_of_mem _ hm)]

theorem pyReplaceDel_eq_self {pat : List Char} {x : Char} (hx : x ∈ pat)
    {s : List Char} (hs : x ∉ s) : pyReplaceDel pat s = s := by
  cases pat with
  | nil => rfl
  | cons p ps => exact pyReplaceDelAux_eq_self hx s.length hs

/-! ## Domain normalization: characterization and idempotence -/

namespace ContestManager

/-- Every nonempty output of `_normalize_domain` is free of `:` and `/`,
lowercase-fixed, trim-fixed, and contains a dot. -/
theorem normalize_invariants (x : List Char) :
    _normalize_domain x = [] ∨
      (':' ∉ _normalize_domain x ∧ '/' ∉ _normalize_domain x ∧
       toLowerL (_normalize_domain x) = _normalize_domain x ∧
       trimL (_normalize_domain x) = _normalize_domain x ∧
       '.' ∈ _normalize_domain x) := by
  by_cases h0 : x = []
  · left
    simp [_normalize_domain, h0]
  · have hval : _normalize_domain x =
        if trimL (toLowerL (takeUntil ':' (takeUntil '/'
            (pyReplaceDel "https://".data (pyReplaceDel "http://".data x))))) = [] ∨
          '.' ∉ trimL (toLowerL (takeUntil ':' (takeUntil '/'
            (pyReplaceDel "https://".data (pyReplaceDel "http://".data x))))) then []
        else trimL (toLowerL (takeUntil ':' (takeUntil '/'
          (pyReplaceDel "https://".data (pyReplaceDel "http://".data x))))) := by
      simp only [_normalize_domain, if_neg h0]
    set d4 := takeUntil ':' (takeUntil '/'
      (pyReplaceDel "https://".data (pyReplaceDel "http://".data x))) with hd4
    by_cases hg : trimL (toLowerL d4) = [] ∨ '.' ∉ trimL (toLowerL d4)
    · left
      rw [hval, if_pos hg]
    · right
      rw [hval, if_neg hg]
      push_neg at hg
      refine ⟨?_, ?_, ?_, trimL_idem _, hg.2⟩
      · intro hm
        have h1 := mem_trimL hm
        obtain ⟨y, hy, hey⟩ := List.mem_map.mp h1
        have : y = ':' := eq_of_toLower_eq (by decide) hey
        subst this
        exact (mem_takeUntil hy).2 rfl
      · intro hm
        have h1 := mem_trimL hm
        obtain ⟨y, hy, hey⟩ := List.mem_map.mp h1
        have : y = '/' := eq_of_toLower_eq (by decide) hey
        subst this
        exact (mem_takeUntil (mem_takeUntil hy).1).2 rfl
      · apply map_eq_self_of_fix
        intro c hc
        obtain ⟨y, _, hey⟩ := List.mem_map.mp (mem_trimL hc)
        rw [← hey, toLower_idem]

/-- Claim C7 core: `_normalize_domain` is idempotent. -/
theorem normalize_idem (x : List Char) :
    _normalize_domain (_normalize_domain x) = _normalize_domain x := by
  rcases normalize_invariants x with h | ⟨hc, hs, hlow, htrim, hdot⟩
  · rw [h]
    simp [_normalize_domain]
  · set o := _normalize_domain x with ho
    have hne : o ≠ [] := by
      intro h
      rw [h] at hdot
      cases hdot
    have e1 : pyReplaceDel "http://".data o = o :=
      pyReplaceDel_eq_self (x := ':') (by decide) hc
    have e2 : pyReplaceDel "https://".data o = o :=
      pyReplaceDel_eq_self (x := ':') (by decide) hc
    have e3 : takeUntil '/' o = o := takeUntil_eq_self hs
    have e4 : takeUntil ':' o = o := takeUntil_eq_self hc
    simp only [_normalize_domain, if_neg hne, e1, e2, e3, e4, hlow, htrim]
    rw [if_neg (by push_neg; exact ⟨hne, hdot⟩)]

end ContestManager

/-! ## Splitting, sorting and set lemmas for the whitelist file -/

theorem splitCh_ne_nil (sep : Char) (l : List Char) : splitCh sep l ≠ [] := by
  cases l with
  | nil => simp [splitCh]
  | cons c cs =>
    rw [splitCh]
    split_ifs
    · simp
    · cases h : splitCh sep cs <;> simp

theorem mem_splitCh_no_sep {sep : Char} :
    ∀ {l m : List Char}, m ∈ splitCh sep l → sep ∉ m := by
  intro l
  induction l with
  | nil =>
    intro m hm
    simp only [splitCh, List.mem_singleton] at hm
    simp [hm]
  | cons c cs ih =>
    intro m hm
    rw [splitCh] at hm
    split_ifs at hm with hc
    · rcases List.mem_cons.mp hm with rfl | hm'
      · simp
      · exact ih hm'
    · cases h : splitCh sep cs with
      | nil => exact absurd h (splitCh_ne_nil sep cs)
      | cons l0 ls =>
        rw [h] at hm
        rcases List.mem_cons.mp hm with rfl | hm'
        · intro hsep
          rcases List.mem_cons.mp hsep with rfl | hsep'
          · exact hc rfl
          · exact ih (h ▸ List.mem_cons_self l0 ls) hsep'
        · exact ih (h ▸ List.mem_cons_of_mem l0 hm')

theorem splitCh_append {sep : Char} {a : List Char} (ha : sep ∉ a) (b : List Char) :
    splitCh sep (a ++ sep :: b) = a :: splitCh sep b := by
  induction a with
  | nil => simp [splitCh]
  | cons c cs ih =>
    have hc : c ≠ sep := fun h => ha (h ▸ List.mem_cons_self c cs)
    rw [List.cons_append, splitCh, if_neg (fun h => hc h)]
    rw [ih fun h => ha (List.mem_cons_of_mem c h)]

theorem splitCh_joined {sep : Char} :
    ∀ {doms : List (List Char)}, (∀ d ∈ doms, sep ∉ d) →
      splitCh sep (doms.foldr (fun d acc => d ++ sep :: acc) []) = doms ++ [[]] := by
  intro doms
  induction doms with
  | nil => intro _; simp [splitCh]
  | cons d ds ih =>
    intro h
    rw [List.foldr_cons, splitCh_append (h d (by simp)) _]
    rw [ih fun d' hd' => h d' (List.mem_cons_of_mem d hd')]
    rfl

theorem mem_insertSorted {a x : List Char} {l : List (List Char)} :
    x ∈ insertSorted a l ↔ x = a ∨ x ∈ l := by
  induction l with
  | nil => simp [insertSorted]
  | cons b bs ih =>
    rw [insertSorted]
    split_ifs
    · simp
    · simp only [List.mem_cons, ih]
      tauto

theorem insertSorted_perm (a : List Char) (l : List (List Char)) :
    List.Perm (insertSorted a l) (a :: l) := by
  induction l with
  | nil => simp [insertSorted]
  | cons b bs ih =>
    rw [insertSorted]
    split_ifs
    · exact List.Perm.refl _
    · exact List.Perm.trans (List.Perm.cons b ih) (List.Perm.swap a b bs)

theorem pySorted_perm (l : List (List Char)) : List.Perm (pySorted l) l := by
  induction l with
  | nil => exact List.Perm.refl _
  | cons a as ih =>
    exact List.Perm.trans (insertSorted_perm a (pySorted as)) (List.Perm.cons a ih)

theorem mem_pySorted {x : List Char} {l : List (List Char)} :
    x ∈ pySorted l ↔ x ∈ l :=
  (pySorted_perm l).mem_iff

namespace ContestManager

theorem mem_loadLine_fold {x : List Char} :
    ∀ {lines : List (List Char)} {acc : List (List Char)},
      x ∈ lines.foldl loadLine acc ↔
        x ∈ acc ∨ ∃ l ∈ lines, (trimL l ≠ [] ∧ ¬ pyStartswith (trimL l) "#".data) ∧
          x = toLowerL (trimL l) := by
  intro lines
  induction lines with
  | nil => simp
  | cons l ls ih =>
    intro acc
    rw [List.foldl_cons, ih]
    simp only [loadLine]
    split_ifs with h
    · rw [mem_insertSet]
      constructor
      · rintro ((hx | rfl) | hx)
        · exact Or.inl hx
        · exact Or.inr ⟨l, by simp, h, rfl⟩
        · obtain ⟨l', hl', hk, hv⟩ := hx
          exact Or.inr ⟨l', List.mem_cons_of_mem l hl', hk, hv⟩
      · rintro (hx | ⟨l', hl', hk, hv⟩)
        · exact Or.inl (Or.inl hx)
        · rcases List.mem_cons.mp hl' with rfl | hl''
          · exact Or.inl (Or.inr hv)
          · exact Or.inr ⟨l', hl'', hk, hv⟩
    · constructor
      · rintro (hx | ⟨l', hl', hk, hv⟩)
        · exact Or.inl hx
        · exact Or.inr ⟨l', List.mem_cons_of_mem l hl', hk, hv⟩
      · rintro (hx | ⟨l', hl', hk, hv⟩)
        · exact Or.inl hx
        · rcases List.mem_cons.mp hl' with rfl | hl''
          · exact absurd hk h
          · exact Or.inr ⟨l', hl'', hk, hv⟩

/-- The lines of a saved whitelist: the three header lines, a blank line,
the sorted domains, and the trailing empty fragment. -/
theorem splitCh_save (doms : List (List Char)) (h : ∀ d ∈ doms, '\n' ∉ d) :
    splitCh '\n' (save_whitelist doms) =
      "# Contest Environment Manager - Whitelisted Sites".data ::
        "# Add one domain per line".data ::
          "# Comments start with #".data :: [] :: (pySorted doms ++ [[]]) := by
  have hh : save_whitelist doms =
      "# Contest Environment Manager - Whitelisted Sites".data ++ '\n' ::
        ("# Add one domain per line".data ++ '\n' ::
          ("# Comments start with #".data ++ '\n' :: ([] ++ '\n' ::
            (pySorted doms).foldr (fun d acc => d ++ '\n' :: acc) []))) := by
    unfold save_whitelist whitelistHeader
    simp
  rw [hh, splitCh_append (by decide), splitCh_append (by decide),
    splitCh_append (by decide), splitCh_append (by simp)]
  rw [splitCh_joined fun d hd => h d (mem_pySorted.mp hd)]

/-- Round trip of the whitelist store: loading a saved set of good domains
yields exactly that set. -/
theorem load_save_mem (doms : List (List Char)) (h : ∀ d ∈ doms, goodDomain d)
    (x : List Char) :
    x ∈ load_whitelist (save_whitelist doms) ↔ x ∈ doms := by
  unfold load_whitelist
  rw [splitCh_save doms fun d hd => (h d hd).2.2.1, mem_loadLine_fold]
  simp only [List.not_mem_nil, false_or]
  constructor
  · rintro ⟨l, hl, ⟨hk1, hk2⟩, hv⟩
    rcases List.mem_cons.mp hl with rfl | hl
    · exact absurd (by decide) hk2
    rcases List.mem_cons.mp hl with rfl | hl
    · exact absurd (by decide) hk2
    rcases List.mem_cons.mp hl with rfl | hl
    · exact absurd (by decide) hk2
    rcases List.mem_cons.mp hl with rfl | hl
    · exact absurd rfl hk1
    rcases List.mem_append.mp hl with hl | hl
    · have hld := h l (mem_pySorted.mp hl)
      rw [hld.1] at hv
      rw [hv, hld.2.1]
      exact mem_pySorted.mp hl
    · rw [List.mem_singleton] at hl
      subst hl
      exact absurd rfl hk1
  · intro hx
    have hxd := h x hx
    refine ⟨x, ?_, ⟨by rw [hxd.1]; exact hxd.2.2.2.1, ?_⟩, by rw [hxd.1, hxd.2.1]⟩
    · simp only [List.mem_cons]
      refine Or.inr (Or.inr (Or.inr (Or.inr (List.mem_append.mpr (Or.inl ?_)))))
      exact mem_pySorted.mpr hx
    · rw [hxd.1, hxd.2.2.2.2]
      simp

theorem load_whitelist_nodup (file : List Char) : (load_whitelist file).Nodup := by
  unfold load_whitelist
  generalize splitCh '\n' file = lines
  have : ∀ (ls : List (List Char)) (acc : List (List Char)), acc.Nodup →
      (ls.foldl loadLine acc).Nodup := by
    intro ls
    induction ls with
    | nil => exact fun acc h => h
    | cons l ls ih =>
      intro acc hacc
      rw [List.foldl_cons]
      apply ih
      simp only [loadLine]
      split_ifs with h
      · exact nodup_insertSet hacc _
      · exact hacc
  exact this lines [] List.nodup_nil

theorem list_domains_nodup (file : List Char) : (list_domains file).Nodup :=
  ((pySorted_perm (load_whitelist file)).symm).nodup (load_whitelist_nodup file)

end ContestManager

/-! ## Whitespace and case interaction -/

theorem ws_toNat {t : Char} (h : t.isWhitespace = true) :
    t.toNat = 32 ∨ t.toNat = 9 ∨ t.toNat = 13 ∨ t.toNat = 10 := by
  simp only [Char.isWhitespace, Bool.or_eq_true, decide_eq_true_eq] at h
  rcases h with ((h | h) | h) | h <;> subst h <;> simp

theorem isWhitespace_toLower (c : Char) :
    (Char.toLower c).isWhitespace = c.isWhitespace := by
  by_cases h : c.toNat >= 65 ∧ c.toNat <= 90
  · have h1 : (Char.toLower c).toNat = c.toNat + 32 := by
      rw [toLower_toNat, if_pos h]
    have h2 : (Char.toLower c).isWhitespace = false := by
      by_contra hc
      rcases ws_toNat (by simpa using hc) with hw | hw | hw | hw <;> omega
    have h3 : c.isWhitespace = false := by
      by_contra hc
      rcases ws_toNat (by simpa using hc) with hw | hw | hw | hw <;> omega
    rw [h2, h3]
  · rw [toLower_ite, if_neg h]

theorem dropWs_toLowerL (l : List Char) :
    dropWs (toLowerL l) = toLowerL (dropWs l) := by
  induction l with
  | nil => rfl
  | cons c cs ih =>
    by_cases hw : c.isWhitespace
    · rw [toLowerL, List.map_cons, dropWs, if_pos (by rw [isWhitespace_toLower]; exact hw),
        dropWs, if_pos hw]
      exact ih
    · rw [toLowerL, List.map_cons, dropWs,
        if_neg (by rw [isWhitespace_toLower]; exact hw), dropWs, if_neg hw]
      rfl

theorem trimL_toLowerL (l : List Char) :
    trimL (toLowerL l) = toLowerL (trimL l) := by
  unfold trimL
  rw [dropWs_toLowerL]
  rw [show (toLowerL (dropWs l)).reverse = toLowerL (dropWs l).reverse by
    simp [toLowerL, List.map_reverse]]
  rw [dropWs_toLowerL]
  simp [toLowerL, List.map_reverse]

namespace ContestManager

/-- Every domain produced by `load_whitelist` is good: the parsing loop
only emits trimmed, lowercased, newline-free, nonempty non-comment lines. -/
theorem load_whitelist_good (file : List Char) :
    ∀ x ∈ load_whitelist file, goodDomain x := by
  intro x hx
  unfold load_whitelist at hx
  rw [mem_loadLine_fold] at hx
  rcases hx with hx | ⟨l, hl, ⟨hk1, hk2⟩, rfl⟩
  · cases hx
  have hnl : '\n' ∉ l := mem_splitCh_no_sep hl
  refine ⟨?_, toLowerL_idem _, ?_, ?_, ?_⟩
  · rw [trimL_toLowerL, trimL_idem]
  · intro hm
    obtain ⟨y, hy, hey⟩ := List.mem_map.mp hm
    have : y = '\n' := eq_of_toLower_eq (by decide) hey
    subst this
    exact hnl (mem_trimL hy)
  · intro h
    exact hk1 (by simpa [toLowerL] using congrArg List.length h)
  · cases hc : trimL l with
    | nil => exact absurd hc hk1
    | cons c cs =>
      rw [hc] at hk2
      simp only [toLowerL, List.map_cons]
      show ((Char.toLower c == '#') && pyStartswith (cs.map Char.toLower) []) = false
      simp only [pyStartswith, Bool.and_true]
      have hc2 : (c == '#') = false := by
        by_contra hcc
        apply hk2
        have : c = '#' := by simpa using hcc
        subst this
        show pyStartswith ('#' :: cs) ['#'] = true
        simp [pyStartswith]
      by_contra hcc
      have : Char.toLower c = '#' := by simpa using hcc
      have : c = '#' := eq_of_toLower_eq (by decide) this
      subst this
      simp at hc2

/-- Lemma: `add_domain` on an argument normalizing to a good domain `d` reports
success, and the resulting whitelist file holds exactly the old set plus
`d`. -/
theorem add_domain_result (file a : List Char) {d : List Char}
    (hnorm : _normalize_domain a = d) (hd : goodDomain d) :
    (add_domain file a).1 = true ∧
      ∀ x, x ∈ load_whitelist (add_domain file a).2 ↔
        x ∈ load_whitelist file ∨ x = d := by
  unfold add_domain
  rw [hnorm]
  rw [if_neg hd.2.2.2.1]
  simp only []
  split_ifs with hmem
  · refine ⟨rfl, fun x => ⟨Or.inl, ?_⟩⟩
    rintro (hx | rfl)
    · exact hx
    · exact hmem
  · refine ⟨rfl, fun x => ?_⟩
    have hgood : ∀ y ∈ insertSet (load_whitelist file) d, goodDomain y := by
      intro y hy
      rcases mem_insertSet.mp hy with hy' | rfl
      · exact load_whitelist_good file y hy'
      · exact hd
    rw [load_save_mem _ hgood x, mem_insertSet]

/-- Folding a sequence of `add` calls whose arguments all normalize to the
same good domain `d`: every call succeeds and the final whitelist set is the
initial set plus `d` (plus nothing when the sequence is empty). -/
theorem runAdds_invariant {d : List Char} (hd : goodDomain d) :
    ∀ (args : List (List Char)) (file : List Char),
      (∀ a ∈ args, _normalize_domain a = d) →
      (∀ r ∈ (runAdds file args).1, r = true) ∧
        ∀ x, x ∈ load_whitelist (runAdds file args).2 ↔
          x ∈ load_whitelist file ∨ (args ≠ [] ∧ x = d) := by
  intro args
  induction args with
  | nil =>
    intro file _
    exact ⟨by simp [runAdds], by simp [runAdds]⟩
  | cons a rest ih =>
    intro file hall
    have ha := add_domain_result file a (hall a (by simp)) hd
    have hrest := ih (add_domain file a).2 fun a' ha' => hall a' (by simp [ha'])
    rw [runAdds]
    constructor
    · intro r hr
      rcases List.mem_cons.mp hr with rfl | hr'
      · exact ha.1
      · exact hrest.1 r hr'
    · intro x
      rw [hrest.2 x, ha.2 x]
      constructor
      · rintro ((hx | rfl) | ⟨-, rfl⟩)
        · exact Or.inl hx
        · exact Or.inr ⟨by simp, rfl⟩
        · exact Or.inr ⟨by simp, rfl⟩
      · rintro (hx | ⟨-, rfl⟩)
        · exact Or.inl (Or.inl hx)
        · exact Or.inl (Or.inr rfl)

end ContestManager

/-! ## Dependency classifier lemmas -/

theorem pyStartswith_iff_append {p : List Char} :
    ∀ {s : List Char}, pyStartswith s p = true ↔ ∃ q, s = p ++ q := by
  induction p with
  | nil =>
    intro s
    simp [pyStartswith]
  | cons a as ih =>
    intro s
    cases s with
    | nil =>
      simp only [pyStartswith]
      constructor
      · intro h; cases h
      · rintro ⟨q, hq⟩; cases hq
    | cons c cs =>
      simp only [pyStartswith, Bool.and_eq_true, beq_iff_eq, ih]
      constructor
      · rintro ⟨rfl, q, rfl⟩
        exact ⟨q, rfl⟩
      · rintro ⟨q, hq⟩
        rw [List.cons_append] at hq
        cases hq
        exact ⟨rfl, q, rfl⟩

theorem pyStartswith_of_append {s p q : List Char}
    (h : pyStartswith s (p ++ q) = true) : pyStartswith s p = true := by
  obtain ⟨r, rfl⟩ := pyStartswith_iff_append.mp h
  exact pyStartswith_iff_append.mpr ⟨q ++ r, by simp⟩

theorem pyContains_weaken {p q : List Char} :
    ∀ {s : List Char}, pyContains s (p ++ q) = true → pyContains s p = true := by
  intro s
  induction s with
  | nil =>
    intro h
    rw [pyContains] at h ⊢
    exact pyStartswith_of_append h
  | cons c cs ih =>
    intro h
    rw [pyContains, Bool.or_eq_true] at h ⊢
    rcases h with h | h
    · exact Or.inl (pyStartswith_of_append h)
    · exact Or.inr (ih h)

theorem is_essential_of_kw {dep kw : List Char} (hkw : kw ∈ DependencyAnalyzer.essential_keywords)
    (h : pyContains (toLowerL dep) kw = true) :
    DependencyAnalyzer.is_essential dep = true := by
  rw [DependencyAnalyzer.is_essential, List.any_eq_true]
  exact ⟨kw, hkw, h⟩

/-- Every literal CDN pattern starts with an essential keyword, so the
`is_cdn` test is subsumed by the `is_essential` test. -/
theorem is_cdn_imp_essential {dep : List Char}
    (h : DependencyAnalyzer.is_cdn dep = true) :
    DependencyAnalyzer.is_essential dep = true := by
  rw [DependencyAnalyzer.is_cdn, List.any_eq_true] at h
  obtain ⟨p, hp, hcont⟩ := h
  have hall : ∀ p ∈ DependencyAnalyzer.cdn_patterns,
      ∃ kw ∈ DependencyAnalyzer.essential_keywords, pyStartswith p kw = true := by
    decide
  obtain ⟨kw, hkw, hpre⟩ := hall p hp
  obtain ⟨q, rfl⟩ := pyStartswith_iff_append.mp hpre
  exact is_essential_of_kw hkw (pyContains_weaken hcont)

namespace DependencyAnalyzer

theorem mem_filter_fold {x : List Char} :
    ∀ {deps acc : List (List Char)},
      x ∈ deps.foldl filterStep acc ↔
        x ∈ acc ∨ (x ∈ deps ∧ is_blocked x = false ∧ keepDep x = true) := by
  intro deps
  induction deps with
  | nil => simp
  | cons dep rest ih =>
    intro acc
    rw [List.foldl_cons, ih]
    unfold filterStep
    split_ifs with hb hk
    · constructor
      · rintro (hx | ⟨hx, hbl, hkp⟩)
        · exact Or.inl hx
        · exact Or.inr ⟨List.mem_cons_of_mem dep hx, hbl, hkp⟩
      · rintro (hx | ⟨hx, hbl, hkp⟩)
        · exact Or.inl hx
        · rcases List.mem_cons.mp hx with rfl | hx'
          · rw [hb] at hbl; cases hbl
          · exact Or.inr ⟨hx', hbl, hkp⟩
    · rw [mem_insertSet]
      constructor
      · rintro ((hx | rfl) | ⟨hx, hbl, hkp⟩)
        · exact Or.inl hx
        · exact Or.inr ⟨by simp, by simp [hb], hk⟩
        · exact Or.inr ⟨List.mem_cons_of_mem dep hx, hbl, hkp⟩
      · rintro (hx | ⟨hx, hbl, hkp⟩)
        · exact Or.inl (Or.inl hx)
        · rcases List.mem_cons.mp hx with rfl | hx'
          · exact Or.inl (Or.inr rfl)
          · exact Or.inr ⟨hx', hbl, hkp⟩
    · constructor
      · rintro (hx | ⟨hx, hbl, hkp⟩)
        · exact Or.inl hx
        · exact Or.inr ⟨List.mem_cons_of_mem dep hx, hbl, hkp⟩
      · rintro (hx | ⟨hx, hbl, hkp⟩)
        · exact Or.inl hx
        · rcases List.mem_cons.mp hx with rfl | hx'
          · exact absurd hkp hk
          · exact Or.inr ⟨hx', hbl, hkp⟩

/-- Membership in the filtered dependency set: present in the input, not
blocked, and kept by the essential classifier. -/
theorem mem_filter_dependencies {deps : List (List Char)} {x : List Char} :
    x ∈ filter_dependencies deps ↔
      x ∈ deps ∧ is_blocked x = false ∧ keepDep x = true := by
  unfold filter_dependencies
  rw [mem_filter_fold]
  simp

/-- The code's keep condition coincides extensionally with the spec's
description of the essential classification. -/
theorem keepDep_iff_spec (dep : List Char) :
    keepDep dep = true ↔ specEssential dep = true := by
  unfold keepDep specEssential
  simp only [Bool.or_eq_true]
  constructor
  · rintro ((he | hc) | hcc)
    · exact Or.inl (Or.inl he)
    · exact Or.inl (Or.inl (is_cdn_imp_essential hc))
    · exact Or.inr hcc
  · rintro ((he | hs) | hcc)
    · exact Or.inl (Or.inl he)
    · rw [specCdnPatternAtStart, List.any_eq_true] at hs
      obtain ⟨p, hp, hpre⟩ := hs
      refine Or.inl (Or.inr ?_)
      rw [is_cdn, List.any_eq_true]
      refine ⟨p, hp, ?_⟩
      cases hl : toLowerL dep with
      | nil => rw [hl] at hpre; rw [pyContains]; exact hpre
      | cons c cs =>
        rw [hl] at hpre
        rw [pyContains, Bool.or_eq_true]
        exact Or.inl hpre
    · exact Or.inr hcc

theorem collectDep_none {dom u : List Char} {acc : List (List Char)}
    (h : extract_domain u = none) :
    collectDep dom acc u = acc := by
  unfold collectDep
  rw [h]

theorem collectDep_some_ne {dom u dd : List Char} {acc : List (List Char)}
    (h : extract_domain u = some dd) (hne : dd ≠ dom) :
    collectDep dom acc u = insertSet acc dd := by
  unfold collectDep
  rw [h]
  show (if dd ≠ dom then insertSet acc dd else acc) = insertSet acc dd
  rw [if_pos hne]

theorem collectDep_some_eq {dom u dd : List Char} {acc : List (List Char)}
    (h : extract_domain u = some dd) (hne : ¬ dd ≠ dom) :
    collectDep dom acc u = acc := by
  unfold collectDep
  rw [h]
  show (if dd ≠ dom then insertSet acc dd else acc) = acc
  rw [if_neg hne]

theorem mem_collect_fold {dom x : List Char} :
    ∀ {urls acc : List (List Char)},
      x ∈ urls.foldl (collectDep dom) acc ↔
        x ∈ acc ∨ ∃ u ∈ urls, extract_domain u = some x ∧ x ≠ dom := by
  intro urls
  induction urls with
  | nil => simp
  | cons u rest ih =>
    intro acc
    rw [List.foldl_cons]
    cases hed : extract_domain u with
    | none =>
      rw [collectDep_none hed, ih]
      constructor
      · rintro (hx | ⟨u', hu', he, hne⟩)
        · exact Or.inl hx
        · exact Or.inr ⟨u', List.mem_cons_of_mem u hu', he, hne⟩
      · rintro (hx | ⟨u', hu', he, hne⟩)
        · exact Or.inl hx
        · rcases List.mem_cons.mp hu' with rfl | hu''
          · cases hed.symm.trans he
          · exact Or.inr ⟨u', hu'', he, hne⟩
    | some dd =>
      by_cases hdd : dd ≠ dom
      · rw [collectDep_some_ne hed hdd, ih]
        constructor
        · rintro (hx | ⟨u', hu', he, hne⟩)
          · rcases mem_insertSet.mp hx with hx' | rfl
            · exact Or.inl hx'
            · exact Or.inr ⟨u, by simp, hed, hdd⟩
          · exact Or.inr ⟨u', List.mem_cons_of_mem u hu', he, hne⟩
        · rintro (hx | ⟨u', hu', he, hne⟩)
          · exact Or.inl (mem_insertSet.mpr (Or.inl hx))
          · rcases List.mem_cons.mp hu' with rfl | hu''
            · have : dd = x := by
                have := hed.symm.trans he
                cases this
                rfl
              subst this
              exact Or.inl (mem_insertSet.mpr (Or.inr rfl))
            · exact Or.inr ⟨u', hu'', he, hne⟩
      · rw [collectDep_some_eq hed hdd, ih]
        constructor
        · rintro (hx | ⟨u', hu', he, hne⟩)
          · exact Or.inl hx
          · exact Or.inr ⟨u', List.mem_cons_of_mem u hu', he, hne⟩
        · rintro (hx | ⟨u', hu', he, hne⟩)
          · exact Or.inl hx
          · rcases List.mem_cons.mp hu' with rfl | hu''
            · have : dd = x := by
                have := hed.symm.trans he
                cases this
                rfl
              subst this
              exact absurd hne hdd
            · exact Or.inr ⟨u', hu'', he, hne⟩

/-- Shape of every host produced by `extract_domain`: nonempty,
lowercase-fixed and colon-free. -/
theorem extract_domain_props {u m : List Char} (h : extract_domain u = some m) :
    m ≠ [] ∧ toLowerL m = m ∧ ':' ∉ m := by
  unfold extract_domain at h
  simp only [] at h
  set d0 := toLowerL (netlocL u) with hd0
  have h0fix : toLowerL d0 = d0 := toLowerL_idem _
  set d1 := if ':' ∈ d0 then takeUntil ':' d0 else d0 with hd1
  have h1sub : ∀ y ∈ d1, y ∈ d0 := by
    intro y hy
    rw [hd1] at hy
    split_ifs at hy with hc
    · exact (mem_takeUntil hy).1
    · exact hy
  have h1colon : ':' ∉ d1 := by
    rw [hd1]
    split_ifs with hc
    · intro hm
      exact (mem_takeUntil hm).2 rfl
    · exact hc
  set d2 := if pyStartswith d1 "www.".data then d1.drop 4 else d1 with hd2
  have h2sub : ∀ y ∈ d2, y ∈ d1 := by
    intro y hy
    rw [hd2] at hy
    split_ifs at hy with hw
    · exact List.mem_of_mem_drop hy
    · exact hy
  by_cases h2e : d2 = []
  · rw [if_pos h2e] at h
    cases h
  · rw [if_neg h2e, Option.some.injEq] at h
    rw [← h]
    refine ⟨h2e, ?_, fun hm => h1colon (h2sub _ hm)⟩
    apply map_eq_self_of_fix
    intro c hc
    exact mem_of_map_fix h0fix (h1sub c (h2sub c hc))

end DependencyAnalyzer

/-- A duplicate-free list counts each member exactly once. -/
theorem count_one_of_nodup_mem {l : List (List Char)} {d : List Char}
    (hn : l.Nodup) (hm : d ∈ l) : l.count d = 1 := by
  induction l with
  | nil => cases hm
  | cons a rest ih =>
    rw [List.count_cons]
    rcases List.mem_cons.mp hm with rfl | hmem
    · rw [if_pos (by simp)]
      have hnotin : d ∉ rest := (List.nodup_cons.mp hn).1
      rw [List.count_eq_zero.mpr hnotin]
    · have hne : ¬(a == d) = true := by
        simp only [beq_iff_eq]
        intro h
        exact (List.nodup_cons.mp hn).1 (h ▸ hmem)
      rw [if_neg hne, Nat.add_zero]
      exact ih (List.nodup_cons.mp hn).2 hmem

/-! ## Chain-name facts -/

theorem pyUpper_length (u : String) :
    (NetworkRestrictor.pyUpper u).length = u.length := by
  simp [NetworkRestrictor.pyUpper, toUpperL]

theorem chain_in_ne_chain_out (u : String) :
    NetworkRestrictor.chain_in u ≠ NetworkRestrictor.chain_out u := by
  intro h
  have h2 := congrArg String.length h
  simp [NetworkRestrictor.chain_in, NetworkRestrictor.chain_out, String.length_append,
    pyUpper_length, show "_IN".length = 3 from rfl, show "_OUT".length = 4 from rfl] at h2

theorem chain_in_ne_OUTPUT (u : String) :
    NetworkRestrictor.chain_in u ≠ "OUTPUT" := by
  intro h
  have h2 := congrArg String.length h
  simp [NetworkRestrictor.chain_in, String.length_append, pyUpper_length,
    show "CONTEST_".length = 8 from rfl, show "_IN".length = 3 from rfl,
    show "OUTPUT".length = 6 from rfl] at h2
  omega

theorem chain_out_ne_OUTPUT (u : String) :
    NetworkRestrictor.chain_out u ≠ "OUTPUT" := by
  intro h
  have h2 := congrArg String.length h
  simp [NetworkRestrictor.chain_out, String.length_append, pyUpper_length,
    show "CONTEST_".length = 8 from rfl, show "_OUT".length = 4 from rfl,
    show "OUTPUT".length = 6 from rfl] at h2
  omega

/-! ## Claim theorems -/

/-- C1: when `apply_restrictions` runs for a user whose whitelist is
`{example.com}` and resolution yields exactly `{93.184.216.34}` for
`example.com` and nothing for any other queried name, the run succeeds and
the user's IPv4 output chain holds, in this exact order: accept
established/related, accept loopback, accept DNS over UDP 53, accept DNS
over TCP 53, accept destination 93.184.216.34, and a catch-all reject. -/
theorem claim_C1 (user : String) (uid : Nat) (resolveA resolveAAAA : String → List String)
    (hA : resolveA = fun n => if n = "example.com" then ["93.184.216.34"] else [])
    (hAAAA : resolveAAAA = fun _ => []) :
    (run initialFw (NetworkRestrictor.apply_restrictions resolveA resolveAAAA
        user uid ["example.com"] [])).map
      (fun s => getChain s.v4.chains (NetworkRestrictor.chain_out user)) =
    some (some
      [["-m", "state", "--state", "ESTABLISHED,RELATED", "-j", "ACCEPT"],
       ["-d", "127.0.0.0/8", "-j", "ACCEPT"],
       ["-p", "udp", "--dport", "53", "-j", "ACCEPT"],
       ["-p", "tcp", "--dport", "53", "-j", "ACCEPT"],
       ["-d", "93.184.216.34", "-j", "ACCEPT"],
       ["-j", "REJECT", "--reject-with", "icmp-host-unreachable"]]) := by
  subst hA hAAAA
  have h1 := chain_in_ne_chain_out user
  have h2 := chain_in_ne_OUTPUT user
  have h3 := chain_out_ne_OUTPUT user
  simp [NetworkRestrictor.apply_restrictions, NetworkRestrictor.clear_existing_rules,
    NetworkRestrictor.create_chains, NetworkRestrictor.setup_default_rules,
    NetworkRestrictor.add_domain_rules, NetworkRestrictor.add_essential_cdns,
    NetworkRestrictor.finalize_rules, NetworkRestrictor.resolve_domain_ips,
    NetworkRestrictor.commonSubdomains, NetworkRestrictor.essential_cdns, pySet, pyUnion,
    insertSet, NetworkRestrictor.ipRule, NetworkRestrictor.ipVersion,
    NetworkRestrictor.validOctet, splitCh, NetworkRestrictor.jumpRule,
    NetworkRestrictor.cmd4, NetworkRestrictor.cmd6, run, execCmd, execTable, getChain,
    setChain, delChain, chainReferenced, referencesChain, ruleTarget, initialFw,
    h1, h2, h3, Ne.symm h1]

/-- C1 witness at a concrete user, uid and resolver pair. -/
theorem claim_C1_witness :
    (run initialFw (NetworkRestrictor.apply_restrictions
        (fun n => if n = "example.com" then ["93.184.216.34"] else []) (fun _ => [])
        "participant" 1000 ["example.com"] [])).map
      (fun s => getChain s.v4.chains (NetworkRestrictor.chain_out "participant")) =
    some (some
      [["-m", "state", "--state", "ESTABLISHED,RELATED", "-j", "ACCEPT"],
       ["-d", "127.0.0.0/8", "-j", "ACCEPT"],
       ["-p", "udp", "--dport", "53", "-j", "ACCEPT"],
       ["-p", "tcp", "--dport", "53", "-j", "ACCEPT"],
       ["-d", "93.184.216.34", "-j", "ACCEPT"],
       ["-j", "REJECT", "--reject-with", "icmp-host-unreachable"]]) :=
  claim_C1 "participant" 1000 _ _ rfl rfl

/-- C2 (code bug): reapplying restrictions duplicates the IPv6 OUTPUT
binding.  After two `apply_restrictions` runs for user `participant`
(uid 1000) with whitelist `{example.com}`, the IPv4 OUTPUT chain holds the
owner-match jump rule exactly once, but the IPv6 OUTPUT chain holds it
twice: `clear_existing_rules` deletes the jump rule only with `iptables`,
never with `ip6tables`. -/
theorem claim_C2 :
    ((run initialFw (NetworkRestrictor.apply_restrictions
        (fun n => if n = "example.com" then ["93.184.216.34"] else []) (fun _ => [])
        "participant" 1000 ["example.com"] [])).bind
      (fun s => run s (NetworkRestrictor.apply_restrictions
        (fun n => if n = "example.com" then ["93.184.216.34"] else []) (fun _ => [])
        "participant" 1000 ["example.com"] []))).map
      (fun s => (s.v4.output.count (NetworkRestrictor.jumpRule 1000 "participant"),
                 s.v6.output.count (NetworkRestrictor.jumpRule 1000 "participant"))) =
    some (1, 2) := by decide

/-- C3 counterexample: the claim's own example call
`add("HTTP://Example.com/path")` does not report success — the scheme strip
in `_normalize_domain` is case-sensitive, so normalization of the uppercase
scheme yields the empty string and the add is rejected. -/
theorem claim_C3_counterexample :
    (ContestManager.add_domain (ContestManager.save_whitelist [])
        "HTTP://Example.com/path".data).1 = false := by decide

/-- C3 (amended): for every sequence of add calls whose arguments normalize
to the same host `d` (decorations with a lowercase scheme, letter case in
the host, or a path; `d` contains a dot, no newline, and is not a comment
line), every add reports success and the final whitelist lists `d` exactly
once. -/
theorem claim_C3 (file d : List Char) (args : List (List Char)) (hne : args ≠ [])
    (hall : ∀ a ∈ args, ContestManager._normalize_domain a = d)
    (hdot : '.' ∈ d) (hnl : '\n' ∉ d)
    (hhash : pyStartswith d "#".data = false) :
    (∀ r ∈ (ContestManager.runAdds file args).1, r = true) ∧
      (ContestManager.list_domains (ContestManager.runAdds file args).2).count d = 1 := by
  have hdne : d ≠ [] := by
    intro h
    rw [h] at hdot
    cases hdot
  obtain ⟨a0, ha0⟩ : ∃ a, a ∈ args := by
    cases args with
    | nil => exact absurd rfl hne
    | cons a rest => exact ⟨a, by simp⟩
  have hnorm := hall a0 ha0
  have hd : ContestManager.goodDomain d := by
    rcases ContestManager.normalize_invariants a0 with h | ⟨hc, hs, hlow, htrim, hdot2⟩
    · rw [hnorm] at h
      exact absurd h hdne
    · rw [hnorm] at hlow htrim
      exact ⟨htrim, hlow, hnl, hdne, hhash⟩
  have hinv := ContestManager.runAdds_invariant hd args file hall
  refine ⟨hinv.1, ?_⟩
  have hmem : d ∈ ContestManager.load_whitelist (ContestManager.runAdds file args).2 :=
    (hinv.2 d).mpr (Or.inr ⟨hne, rfl⟩)
  exact count_one_of_nodup_mem (ContestManager.list_domains_nodup _)
    (mem_pySorted.mpr hmem)

/-- C3 witness: adding `http://Example.com/path` and then `example.com` to
an empty whitelist succeeds twice and lists `example.com` once. -/
theorem claim_C3_witness :
    (∀ r ∈ (ContestManager.runAdds (ContestManager.save_whitelist [])
        ["http://Example.com/path".data, "example.com".data]).1, r = true) ∧
      (ContestManager.list_domains (ContestManager.runAdds
        (ContestManager.save_whitelist [])
        ["http://Example.com/path".data, "example.com".data]).2).count
        "example.com".data = 1 :=
  claim_C3 _ _ _ (by decide) (by decide) (by decide) (by decide) (by decide)

/-- C4: a blocked-keyword match short-circuits the classifier — a host
matching a blocked keyword never appears in the filtered dependency set,
whatever else it matches. -/
theorem claim_C4 (deps : List (List Char)) (host : List Char)
    (hb : DependencyAnalyzer.is_blocked host = true) :
    host ∉ DependencyAnalyzer.filter_dependencies deps := by
  intro hm
  have h := (DependencyAnalyzer.mem_filter_dependencies.mp hm).2.1
  rw [hb] at h
  cases h

/-- C4 witness: `static.facebook.com` matches both `facebook` (blocked) and
`static` (essential) and is excluded. -/
theorem claim_C4_witness :
    DependencyAnalyzer.is_blocked "static.facebook.com".data = true ∧
      DependencyAnalyzer.is_essential "static.facebook.com".data = true ∧
      "static.facebook.com".data ∉
        DependencyAnalyzer.filter_dependencies ["static.facebook.com".data] :=
  ⟨by decide, by decide, claim_C4 _ _ (by decide)⟩

/-- C5 counterexample: a cached entry for `old.com` is present before a
restrict run whose whitelist is `{example.com}` and absent from the cache
the run writes — the run rebuilds the cache from scratch. -/
theorem claim_C5_counterexample :
    ContestManager.lookupCache [("old.com".data, ["dep.example.net".data])]
        "old.com".data = some ["dep.example.net".data] ∧
      ContestManager.lookupCache
        (ContestManager.restrict_cache_step (fun _ => [])
          (ContestManager.save_whitelist ["example.com".data])
          [("old.com".data, ["dep.example.net".data])]) "old.com".data = none := by
  decide

/-- C5 (amended): each restrict run of the packaged manager rebuilds the
dependency cache from scratch: the written cache has exactly one entry per
currently whitelisted domain, entries of domains no longer whitelisted are
dropped, and the previous cache contents are never read (there is no
`force_refresh` flag in this implementation). -/
theorem claim_C5 (analyze : List Char → List (List Char)) (file : List Char)
    (oldCache : List (List Char × List (List Char))) :
    ((ContestManager.restrict_cache_step analyze file oldCache).map Prod.fst =
        ContestManager.list_domains file) ∧
      ∀ d, d ∉ ContestManager.list_domains file →
        ContestManager.lookupCache
          (ContestManager.restrict_cache_step analyze file oldCache) d = none := by
  constructor
  · simp [ContestManager.restrict_cache_step, List.map_map, Function.comp_def]
  · intro d hd
    unfold ContestManager.restrict_cache_step
    generalize ContestManager.list_domains file = doms at hd ⊢
    induction doms with
    | nil => rfl
    | cons a rest ih =>
      have hne : a ≠ d := by
        intro h
        apply hd
        rw [← h]
        exact List.mem_cons_self a rest
      rw [List.map_cons, ContestManager.lookupCache, if_neg hne]
      exact ih fun h2 => hd (List.mem_cons_of_mem a h2)

/-- C5 witness. -/
theorem claim_C5_witness :
    ((ContestManager.restrict_cache_step (fun _ => [])
        (ContestManager.save_whitelist ["example.com".data]) []).map Prod.fst =
      ContestManager.list_domains
        (ContestManager.save_whitelist ["example.com".data])) ∧
      ContestManager.lookupCache
        (ContestManager.restrict_cache_step (fun _ => [])
          (ContestManager.save_whitelist ["example.com".data]) [])
        "old.com".data = none :=
  ⟨(claim_C5 (fun _ => []) (ContestManager.save_whitelist ["example.com".data]) []).1,
   (claim_C5 (fun _ => []) (ContestManager.save_whitelist ["example.com".data]) []).2
     "old.com".data (by decide)⟩

/-- C6 counterexample: the domain `a.\nb` is lowercase, contains a dot and
does not start with `#`, yet saving `{a.\nb}` and loading the file back does
not return it (the newline splits it into two lines). -/
theorem claim_C6_counterexample :
    toLowerL "a.\nb".data = "a.\nb".data ∧ '.' ∈ "a.\nb".data ∧
      pyStartswith "a.\nb".data "#".data = false ∧
      "a.\nb".data ∉ ContestManager.load_whitelist
        (ContestManager.save_whitelist ["a.\nb".data]) := by
  decide

/-- C6 (amended): the save/load round trip returns exactly the saved set,
independent of insertion order, for domains that are lowercase, contain a
dot, do not start with `#`, and additionally contain no newline and carry no
leading or trailing whitespace. -/
theorem claim_C6 (doms : List (List Char))
    (h : ∀ d ∈ doms, '.' ∈ d ∧ toLowerL d = d ∧
      pyStartswith d "#".data = false ∧ '\n' ∉ d ∧ trimL d = d)
    (x : List Char) :
    x ∈ ContestManager.load_whitelist (ContestManager.save_whitelist doms) ↔
      x ∈ doms := by
  apply ContestManager.load_save_mem
  intro d hd
  obtain ⟨h1, h2, h3, h4, h5⟩ := h d hd
  refine ⟨h5, h2, h4, ?_, h3⟩
  intro he
  rw [he] at h1
  cases h1

/-- C6 witness: a two-element set saved in unsorted insertion order. -/
theorem claim_C6_witness :
    "a.com".data ∈ ContestManager.load_whitelist
        (ContestManager.save_whitelist ["b.com".data, "a.com".data]) ↔
      "a.com".data ∈ [("b.com".data : List Char), "a.com".data] :=
  claim_C6 _ (by decide) _

/-- C7: domain normalization is idempotent on every input string. -/
theorem claim_C7 (x : List Char) :
    ContestManager._normalize_domain (ContestManager._normalize_domain x) =
      ContestManager._normalize_domain x :=
  ContestManager.normalize_idem x

/-- C8: for a crawled host matching no blocked keyword, membership in the
filtered dependency set coincides with the spec's description — an
essential keyword substring, a literal CDN pattern as a prefix segment, or
a `.net`/`.io` ending with a named big-CDN substring; all other hosts are
dropped. -/
theorem claim_C8 (deps : List (List Char)) (host : List Char) (hmem : host ∈ deps)
    (hb : DependencyAnalyzer.is_blocked host = false) :
    host ∈ DependencyAnalyzer.filter_dependencies deps ↔
      DependencyAnalyzer.specEssential host = true := by
  rw [DependencyAnalyzer.mem_filter_dependencies, ← DependencyAnalyzer.keepDep_iff_spec]
  constructor
  · exact fun h => h.2.2
  · exact fun h => ⟨hmem, hb, h⟩

/-- C8 witness: `fonts.gstatic.com` is not blocked, and is kept exactly as
the spec describes. -/
theorem claim_C8_witness :
    "fonts.gstatic.com".data ∈
        DependencyAnalyzer.filter_dependencies ["fonts.gstatic.com".data] ↔
      DependencyAnalyzer.specEssential "fonts.gstatic.com".data = true :=
  claim_C8 _ _ (by decide) (by decide)

/-- C9: a malformed domain (one normalizing to the empty string) passed to
the `add` or `remove` command is rejected — the command exits with code 1
and the whitelist file is unchanged. -/
theorem claim_C9 (file domain : List Char)
    (h : ContestManager._normalize_domain domain = []) :
    ContestManager.addCommand file domain = (1, file) ∧
      ContestManager.removeCommand file domain = (1, file) := by
  unfold ContestManager.addCommand ContestManager.removeCommand
    ContestManager.add_domain ContestManager.remove_domain
  rw [h]
  simp

/-- C9 witness: `not-a-domain` (no dot) is rejected by both commands. -/
theorem claim_C9_witness :
    ContestManager.addCommand (ContestManager.save_whitelist [])
        "not-a-domain".data = (1, ContestManager.save_whitelist []) ∧
      ContestManager.removeCommand (ContestManager.save_whitelist [])
        "not-a-domain".data = (1, ContestManager.save_whitelist []) :=
  claim_C9 _ _ (by decide)

/-- C10 counterexample: for the request URL
`https://www.www.cdn.example.com/lib.js` the analyzer reports the
dependency `www.cdn.example.com`, which still begins with `www.` — only one
leading `www.` is stripped. -/
theorem claim_C10_counterexample :
    "www.cdn.example.com".data ∈ DependencyAnalyzer.analyze_domain
        ["https://www.www.cdn.example.com/lib.js".data] "example.com".data ∧
      pyStartswith "www.cdn.example.com".data "www.".data = true := by
  decide

/-- C10 (amended): every dependency reported by `analyze_domain` differs
from the analyzed domain, is lowercase-fixed and colon-free, and is the
extracted host of one of the captured request URLs (with one leading
`www.` stripped; the result may still begin with `www.`). -/
theorem claim_C10 (urls : List (List Char)) (dom m : List Char)
    (hm : m ∈ DependencyAnalyzer.analyze_domain urls dom) :
    m ≠ dom ∧ toLowerL m = m ∧ ':' ∉ m ∧
      ∃ u ∈ urls, DependencyAnalyzer.extract_domain u = some m := by
  unfold DependencyAnalyzer.analyze_domain at hm
  have h1 := DependencyAnalyzer.mem_filter_dependencies.mp hm
  have h2 := DependencyAnalyzer.mem_collect_fold.mp h1.1
  rcases h2 with h2 | ⟨u, hu, he, hne⟩
  · cases h2
  · have hp := DependencyAnalyzer.extract_domain_props he
    exact ⟨hne, hp.2.1, hp.2.2, u, hu, he⟩

/-- C10 witness. -/
theorem claim_C10_witness :
    "fonts.gstatic.com".data ≠ "example.com".data ∧
      toLowerL "fonts.gstatic.com".data = "fonts.gstatic.com".data ∧
      ':' ∉ "fonts.gstatic.com".data ∧
      ∃ u ∈ [("https://fonts.gstatic.com/f.woff".data : List Char)],
        DependencyAnalyzer.extract_domain u = some "fonts.gstatic.com".data :=
  claim_C10 _ _ _ (by decide)

end PCSetup
